import Mathlib

/-!
Shallow embedding of `src/search.rs` (crate `chappie`): a generic iterative
depth-first search driver over a lazily expanded state space.

The Rust trait `SearchSpace` provides `expand : State → Iterator (Action, State)`;
`dfs(start, goal)` drives an explicit stack of partially consumed expansion
iterators plus a hash-set of visited states, and returns `Option<Vec<Action>>`.

The embedding below models:
  * each `expand` call as a finite list of (action, state) pairs (each Rust
    iterator yielded by `expand` is finite, even though the whole space may be
    infinite);
  * the `HashSet`-backed `Visited` tracker as a `List` used as a set
    (`is_visited` = membership, `insert` = cons when absent);
  * the `loop` as a step function `dfsStep` on machine configurations and a
    fuel-indexed runner `dfsRun` (the Rust loop need not terminate, so the
    embedding returns `none` when the fuel budget is exhausted);
  * invocations of `expand` and of the goal test `is_goal` are recorded in
    logs (`expandLog`, `goalLog`) so that claims about how often the driver
    calls them are statable.
-/

namespace Chappie

/-- The `SearchSpace` trait: `expand` yields the direct successors of a state
as (action, resulting state) pairs, in the order the Rust iterator yields
them. -/
structure SearchSpace (A S : Type) where
  expand : S → List (A × S)

/-- The blanket `SearchGoal` implementation for `T : PartialEq`:
`goal.is_goal(state) = (goal == state)`. -/
def eqGoal {S : Type} [DecidableEq S] (target : S) : S → Bool :=
  fun s => decide (target = s)

/-- A configuration of the iterative DFS loop in `SearchSpace::dfs`:
the visited set, the stack of frames (each frame is the not-yet-consumed
remainder of one `expand` iterator, paired with the action recorded when the
frame was pushed; the head of the list is the top of the stack), plus
instrumentation logs recording, in order, the states `expand` was called on
and the states the goal test was called on. -/
structure Config (A S : Type) where
  visited : List S
  stack : List (List (A × S) × Option A)
  expandLog : List S
  goalLog : List S
deriving Repr, DecidableEq

/-- Outcome of one iteration of the `loop` in `dfs`. -/
inductive StepOut (A S : Type) where
  | found : List A → Config A S → StepOut A S
  | exhausted : Config A S → StepOut A S
  | next : Config A S → StepOut A S
deriving Repr, DecidableEq

/-- One iteration of the `loop` in `SearchSpace::dfs`:
`stack.last_mut()` is `none` ⇒ return `None` (`exhausted`);
otherwise pull `iter.next()` from the top frame: if the frame is spent, pop
it; if the pulled state is already visited, discard the pair; if it satisfies
the goal, return the actions recorded on the stack (bottom to top) with the
pulled action appended; otherwise push `expand(state)` tagged with the pulled
action and insert the state into the visited set. -/
def dfsStep {A S : Type} [DecidableEq S] (sp : SearchSpace A S) (goal : S → Bool)
    (c : Config A S) : StepOut A S :=
  match c.stack with
  | [] => .exhausted c
  | (it, a) :: rest =>
    match it with
    | [] => .next { c with stack := rest }
    | (action, state) :: itRest =>
      if state ∈ c.visited then
        .next { c with stack := (itRest, a) :: rest }
      else
        if goal state then
          .found ((((itRest, a) :: rest).filterMap Prod.snd).reverse ++ [action])
            { c with stack := (itRest, a) :: rest, goalLog := c.goalLog ++ [state] }
        else
          .next { visited := state :: c.visited,
                  stack := (sp.expand state, some action) :: (itRest, a) :: rest,
                  expandLog := c.expandLog ++ [state],
                  goalLog := c.goalLog ++ [state] }

/-- The `loop` of `dfs`, run for at most `fuel` iterations. `none` means the
fuel was exhausted; `some (some p, c)` means the loop returned the path `p`
with final configuration `c`; `some (none, c)` means it returned `None`. -/
def dfsRun {A S : Type} [DecidableEq S] (sp : SearchSpace A S) (goal : S → Bool) :
    Nat → Config A S → Option (Option (List A) × Config A S)
  | 0, _ => none
  | n + 1, c =>
    match dfsStep sp goal c with
    | .found p c' => some (some p, c')
    | .exhausted c' => some (none, c')
    | .next c' => dfsRun sp goal n c'

/-- The configuration set up by `dfs` before entering the loop (lines 52-53 of
`search.rs`): `visited = Visited::new()` (empty) and
`stack = vec![(self.expand(start), None)]`; `expand` and the goal test have
each been called once, on the start state. -/
def dfsInit {A S : Type} (sp : SearchSpace A S) (start : S) : Config A S :=
  ⟨[], [(sp.expand start, none)], [start], [start]⟩

/-- `SearchSpace::dfs`: if the start state satisfies the goal, return the
empty path immediately (no visited set, no stack, no `expand` call);
otherwise run the loop from the initial configuration. -/
def dfs {A S : Type} [DecidableEq S] (sp : SearchSpace A S) (goal : S → Bool)
    (start : S) (fuel : Nat) : Option (Option (List A) × Config A S) :=
  if goal start then some (some [], ⟨[], [], [], [start]⟩)
  else dfsRun sp goal fuel (dfsInit sp start)

/-- The states discovered during a traversal: the start state plus every
state inserted into the visited set. -/
def discovered {A S : Type} (start : S) (c : Config A S) : List S :=
  start :: c.visited

/-- Number of times `expand` was called on `s`, read off a `dfs` result. -/
def expandCalls {A S : Type} (r : Option (Option (List A) × Config A S)) (s : S)
    [DecidableEq S] : Nat :=
  match r with
  | some (_, c) => c.expandLog.count s
  | none => 0

/-- Number of times the goal test was called on `s`, read off a `dfs` result. -/
def goalCalls {A S : Type} (r : Option (Option (List A) × Config A S)) (s : S)
    [DecidableEq S] : Nat :=
  match r with
  | some (_, c) => c.goalLog.count s
  | none => 0

/-- Just the `Option<Vec<Action>>` part of a `dfs` result. -/
def resultOf {A S : Type} (r : Option (Option (List A) × Config A S)) :
    Option (Option (List A)) :=
  r.map Prod.fst

/-- The two actions of the test state space in `tests::test_dfs_simple`. -/
inductive Dir where
  | left : Dir
  | right : Dir
deriving Repr, DecidableEq

/-- The `expand` of `TestSearch` in `tests::test_dfs_simple`:
0 ↦ [(Left,1),(Right,2)], 1 ↦ [(Left,3),(Right,4)], 2 ↦ [(Left,2)], else []. -/
def testExpand : Nat → List (Dir × Nat)
  | 0 => [(Dir.left, 1), (Dir.right, 2)]
  | 1 => [(Dir.left, 3), (Dir.right, 4)]
  | 2 => [(Dir.left, 2)]
  | _ => []

/-- The binary-choice test state space of `tests::test_dfs_simple`. -/
def testSpace : SearchSpace Dir Nat :=
  ⟨testExpand⟩

end Chappie

namespace Chappie

/-- Inversion for a `next` step: it is a pop of a spent frame, a discard of an
already-visited pulled pair, or a descent pushing a fresh frame. -/
theorem dfsStep_next_inv {A S : Type} [DecidableEq S] {sp : SearchSpace A S}
    {goal : S → Bool} {c c' : Config A S}
    (h : dfsStep sp goal c = .next c') :
    (∃ a rest, c.stack = ([], a) :: rest ∧ c' = { c with stack := rest }) ∨
    (∃ act st itRest a rest, c.stack = ((act, st) :: itRest, a) :: rest ∧
      st ∈ c.visited ∧ c' = { c with stack := (itRest, a) :: rest }) ∨
    (∃ act st itRest a rest, c.stack = ((act, st) :: itRest, a) :: rest ∧
      st ∉ c.visited ∧ goal st = false ∧
      c' = ⟨st :: c.visited, (sp.expand st, some act) :: (itRest, a) :: rest,
            c.expandLog ++ [st], c.goalLog ++ [st]⟩) := by
  rcases c with ⟨v, stk, el, gl⟩
  rcases stk with _ | ⟨⟨it, a⟩, rest⟩
  · simp [dfsStep] at h
  rcases it with _ | ⟨⟨act, st⟩, itRest⟩
  · left
    simp only [dfsStep] at h
    cases h
    exact ⟨a, rest, rfl, rfl⟩
  · simp only [dfsStep] at h
    split_ifs at h with h1 h2
    · right; left
      cases h
      exact ⟨act, st, itRest, a, rest, rfl, h1, rfl⟩
    · right; right
      cases h
      exact ⟨act, st, itRest, a, rest, rfl, h1, by simpa using h2, rfl⟩

/-- Inversion for a `found` step: a fresh pulled state satisfied the goal and
the returned path is the recorded stack actions with the pulled one appended. -/
theorem dfsStep_found_inv {A S : Type} [DecidableEq S] {sp : SearchSpace A S}
    {goal : S → Bool} {c c' : Config A S} {p : List A}
    (h : dfsStep sp goal c = .found p c') :
    ∃ act st itRest a rest, c.stack = ((act, st) :: itRest, a) :: rest ∧
      st ∉ c.visited ∧ goal st = true ∧
      p = (((itRest, a) :: rest).filterMap Prod.snd).reverse ++ [act] ∧
      c' = { c with stack := (itRest, a) :: rest, goalLog := c.goalLog ++ [st] } := by
  rcases c with ⟨v, stk, el, gl⟩
  rcases stk with _ | ⟨⟨it, a⟩, rest⟩
  · simp [dfsStep] at h
  rcases it with _ | ⟨⟨act, st⟩, itRest⟩
  · simp [dfsStep] at h
  · simp only [dfsStep] at h
    split_ifs at h with h1 h2
    · cases h
      exact ⟨act, st, itRest, a, rest, rfl, h1, h2, rfl, rfl⟩

/-- Inversion for an `exhausted` step: the stack is empty and the
configuration is returned unchanged. -/
theorem dfsStep_exhausted_inv {A S : Type} [DecidableEq S] {sp : SearchSpace A S}
    {goal : S → Bool} {c c' : Config A S}
    (h : dfsStep sp goal c = .exhausted c') :
    c.stack = [] ∧ c' = c := by
  rcases c with ⟨v, stk, el, gl⟩
  rcases stk with _ | ⟨⟨it, a⟩, rest⟩
  · simp only [dfsStep] at h
    cases h
    exact ⟨rfl, rfl⟩
  rcases it with _ | ⟨⟨act, st⟩, itRest⟩
  · simp [dfsStep] at h
  · simp only [dfsStep] at h
    split_ifs at h

/-- Step-invariant elimination principle for the loop runner: if `I` is
preserved by every `next` step and implies `P` at every terminal step, then
any terminating run from a configuration satisfying `I` produces a result
satisfying `P`. -/
theorem dfsRun_invariant {A S : Type} [DecidableEq S] {sp : SearchSpace A S}
    {goal : S → Bool} {I : Config A S → Prop}
    {P : Option (List A) × Config A S → Prop}
    (hnext : ∀ c c', I c → dfsStep sp goal c = .next c' → I c')
    (hfound : ∀ c p c', I c → dfsStep sp goal c = .found p c' → P (some p, c'))
    (hexh : ∀ c c', I c → dfsStep sp goal c = .exhausted c' → P (none, c')) :
    ∀ (n : Nat) (c : Config A S), I c →
      ∀ r, dfsRun sp goal n c = some r → P r := by
  intro n
  induction n with
  | zero =>
    intro c _ r h
    simp [dfsRun] at h
  | succ n ih =>
    intro c hI r h
    rw [dfsRun] at h
    cases hs : dfsStep sp goal c with
    | found p c' =>
      rw [hs] at h
      cases h
      exact hfound c p c' hI hs
    | exhausted c' =>
      rw [hs] at h
      cases h
      exact hexh c c' hI hs
    | next c' =>
      rw [hs] at h
      exact ih c' (hnext c c' hI hs) r h

end Chappie

namespace Chappie

/-- Any path returned by the loop ends in the action pulled at the final
step, hence is of the form `q ++ [a]`. -/
theorem dfsRun_found_ends_with_action {A S : Type} [DecidableEq S]
    {sp : SearchSpace A S} {goal : S → Bool} :
    ∀ (n : Nat) (c : Config A S) (p : List A) (c' : Config A S),
      dfsRun sp goal n c = some (some p, c') → ∃ q a, p = q ++ [a] := by
  intro n
  induction n with
  | zero =>
    intro c p c' h
    simp [dfsRun] at h
  | succ n ih =>
    intro c p c' h
    rw [dfsRun] at h
    cases hs : dfsStep sp goal c with
    | found p₀ c₀ =>
      rw [hs] at h
      cases h
      obtain ⟨act, st, itRest, a, rest, _, _, _, hp, _⟩ := dfsStep_found_inv hs
      exact ⟨_, act, hp⟩
    | exhausted c₀ =>
      rw [hs] at h
      cases h
    | next c₀ =>
      rw [hs] at h
      exact ih c₀ p c' h

/-- C6: if the start state satisfies the goal, `dfs` returns the empty path
immediately: the visited set stays empty, no frame is pushed, `expand` is
never called, and only one goal test (on the start state) happens. -/
theorem dfs_start_goal {A S : Type} [DecidableEq S] (sp : SearchSpace A S)
    (goal : S → Bool) (start : S) (fuel : Nat) (h : goal start = true) :
    dfs sp goal start fuel = some (some [], ⟨[], [], [], [start]⟩) := by
  simp [dfs, h]

theorem dfs_start_goal_witness :
    dfs testSpace (eqGoal 2) 2 100 =
      some (some [], ⟨[], [], [], [2]⟩) :=
  dfs_start_goal testSpace (eqGoal 2) 2 100 (by decide)

/-- C8: the five example scenarios on the binary-choice test space:
`dfs(0,0) = []`, `dfs(0,1) = [Left]`, `dfs(0,4) = [Left, Right]`,
`dfs(2,2) = []`, and `dfs(2,0)` is not found. -/
theorem dfs_examples :
    resultOf (dfs testSpace (eqGoal 0) 0 100) = some (some []) ∧
    resultOf (dfs testSpace (eqGoal 1) 0 100) = some (some [Dir.left]) ∧
    resultOf (dfs testSpace (eqGoal 4) 0 100) = some (some [Dir.left, Dir.right]) ∧
    resultOf (dfs testSpace (eqGoal 2) 2 100) = some (some []) ∧
    resultOf (dfs testSpace (eqGoal 0) 2 100) = some none := by
  decide

/-- C9: `dfs` is a pure function of the state space, goal, start state and
fuel budget, so two invocations with the same arguments return identical
results (same path, or same "not found"). -/
theorem dfs_deterministic {A S : Type} [DecidableEq S] (sp : SearchSpace A S)
    (goal : S → Bool) (start : S) (fuel : Nat)
    (r₁ r₂ : Option (Option (List A) × Config A S))
    (h₁ : dfs sp goal start fuel = r₁) (h₂ : dfs sp goal start fuel = r₂) :
    r₁ = r₂ :=
  h₁ ▸ h₂ ▸ rfl

theorem dfs_deterministic_witness :
    (some (some [Dir.left], (⟨[], [([(Dir.right, 2)], none)], [0], [0, 1]⟩ : Config Dir Nat)) :
        Option (Option (List Dir) × Config Dir Nat)) =
      some (some [Dir.left], ⟨[], [([(Dir.right, 2)], none)], [0], [0, 1]⟩) :=
  dfs_deterministic testSpace (eqGoal 1) 0 100 _ _ (by decide) rfl

/-- C3 counterexample: on the test space with start state 0 (which does not
satisfy the goal 1), the start state is NOT in the visited set of the
configuration built before the stepping loop begins. -/
theorem dfs_init_start_not_visited_cex :
    ¬ ((0 : Nat) ∈ (dfsInit testSpace 0).visited) := by
  decide

/-- C3 (amended): when the start state does not satisfy the goal, `dfs` runs
the loop from the configuration whose visited set is EMPTY (the start state
is not marked visited) and whose single frontier frame is `expand(start)`
with no recorded incoming action. -/
theorem dfs_init_spec {A S : Type} [DecidableEq S] (sp : SearchSpace A S)
    (goal : S → Bool) (start : S) (fuel : Nat) (h : goal start = false) :
    dfs sp goal start fuel = dfsRun sp goal fuel (dfsInit sp start) ∧
    (dfsInit sp start).visited = [] ∧
    (dfsInit sp start).stack = [(sp.expand start, none)] := by
  refine ⟨?_, rfl, rfl⟩
  simp [dfs, h]

theorem dfs_init_spec_witness :
    dfs testSpace (eqGoal 1) 0 100 = dfsRun testSpace (eqGoal 1) 100 (dfsInit testSpace 0) ∧
    (dfsInit testSpace 0).visited = [] ∧
    (dfsInit testSpace 0).stack = [(testSpace.expand 0, none)] :=
  dfs_init_spec testSpace (eqGoal 1) 0 100 (by decide)

/-- C4 counterexample: in the traversal `dfs(2, goal = 0)` on the test space
(state 2 self-loops), `expand` is called twice on the start state 2, refuting
"expand is called at most once per state ... including the start state". -/
theorem dfs_expand_once_cex :
    ¬ (expandCalls (dfs testSpace (eqGoal 0) 2 100) 2 ≤ 1) := by
  decide

/-- C5 counterexample: in the traversal `dfs(2, goal = 0)` on the test space
(state 2 self-loops), the goal test is invoked twice on the start state 2,
refuting "is_goal is invoked at most once per distinct candidate state ...
in particular ... the start state". -/
theorem dfs_goal_once_cex :
    ¬ (goalCalls (dfs testSpace (eqGoal 0) 2 100) 2 ≤ 1) := by
  decide

/-- C10: a successful `dfs` result is empty only when the start state itself
satisfies the goal; when the start state does not satisfy the goal, every
successful result is a nonempty path ending in a final action. -/
theorem dfs_empty_path_means_start_goal {A S : Type} [DecidableEq S]
    (sp : SearchSpace A S) (goal : S → Bool) (start : S) (fuel : Nat)
    (p : List A) (c : Config A S)
    (h : dfs sp goal start fuel = some (some p, c)) :
    (p = [] → goal start = true) ∧
    (goal start = false → ∃ q a, p = q ++ [a]) := by
  by_cases hg : goal start = true
  · refine ⟨fun _ => hg, fun hf => ?_⟩
    rw [hf] at hg
    cases hg
  · have hg' : goal start = false := by
      cases hb : goal start
      · rfl
      · exact absurd hb hg
    rw [dfs, hg'] at h
    simp only [Bool.false_eq_true, if_false] at h
    obtain ⟨q, a, rfl⟩ := dfsRun_found_ends_with_action fuel (dfsInit sp start) p c h
    refine ⟨fun he => ?_, fun _ => ⟨q, a, rfl⟩⟩
    exact absurd he (by simp)

theorem dfs_empty_path_means_start_goal_witness :
    (([Dir.left] : List Dir) = [] → eqGoal 1 0 = true) ∧
    (eqGoal 1 0 = false → ∃ q a, ([Dir.left] : List Dir) = q ++ [a]) :=
  dfs_empty_path_means_start_goal testSpace (eqGoal 1) 0 100 [Dir.left]
    ⟨[], [([(Dir.right, 2)], none)], [0], [0, 1]⟩ (by decide)

end Chappie

namespace Chappie

/-- Replaying a list of actions from a state: at each step some
(action, state) pair yielded by `expand` whose action matches the next path
element is chosen, and the final state is reached when the path is spent. -/
inductive Replay {A S : Type} (sp : SearchSpace A S) : S → List A → S → Prop
  | nil (s : S) : Replay sp s [] s
  | cons (s : S) (a : A) (s' : S) (p : List A) (t : S) :
      (a, s') ∈ sp.expand s → Replay sp s' p t → Replay sp s (a :: p) t

/-- A replay extends by one action through a matching `expand` successor of
its final state. -/
theorem Replay.append_one {A S : Type} {sp : SearchSpace A S} {s t u : S}
    {p : List A} {a : A} (h : Replay sp s p t) (ha : (a, u) ∈ sp.expand t) :
    Replay sp s (p ++ [a]) u := by
  induction h with
  | nil s => exact Replay.cons _ _ _ _ _ ha (Replay.nil _)
  | cons s b s' q t hb _ ih => exact Replay.cons _ _ _ _ _ hb (ih ha)

/-- Well-formedness of the DFS loop stack (top-first): the bottom frame is a
not-yet-consumed part of `expand start` tagged with no action, each higher
frame is a not-yet-consumed part of `expand s` for a state `s` reached from
the owner of the frame below by the frame's recorded action. The second index
is the state owning the top frame. -/
inductive FramesOk {A S : Type} (sp : SearchSpace A S) (start : S) :
    List (List (A × S) × Option A) → S → Prop
  | base (it : List (A × S)) (hit : it ⊆ sp.expand start) :
      FramesOk sp start [(it, none)] start
  | push (it : List (A × S)) (a : A) (s t : S)
      (rest : List (List (A × S) × Option A))
      (hrest : FramesOk sp start rest t) (ha : (a, s) ∈ sp.expand t)
      (hit : it ⊆ sp.expand s) :
      FramesOk sp start ((it, some a) :: rest) s

/-- Consuming one pending pair from the top frame preserves stack
well-formedness. -/
theorem FramesOk.tail {A S : Type} {sp : SearchSpace A S} {start : S}
    {x : A × S} {it : List (A × S)} {a : Option A}
    {rest : List (List (A × S) × Option A)} {t : S}
    (h : FramesOk sp start ((x :: it, a) :: rest) t) :
    FramesOk sp start ((it, a) :: rest) t := by
  cases h with
  | base _ hit => exact FramesOk.base _ (List.subset_of_cons_subset hit)
  | push _ a' _ u _ hrest ha hit =>
      exact FramesOk.push _ a' _ u _ hrest ha (List.subset_of_cons_subset hit)

/-- The top frame's pending pairs are genuine `expand` successors of the top
frame's owner state. -/
theorem FramesOk.head_mem {A S : Type} {sp : SearchSpace A S} {start : S}
    {x : A × S} {it : List (A × S)} {a : Option A}
    {rest : List (List (A × S) × Option A)} {t : S}
    (h : FramesOk sp start ((x :: it, a) :: rest) t) :
    x ∈ sp.expand t := by
  cases h with
  | base _ hit => exact hit (List.mem_cons_self _ _)
  | push _ a' _ u _ hrest ha hit => exact hit (List.mem_cons_self _ _)

/-- The actions recorded on a well-formed stack, read bottom to top, replay
from the start state to the owner of the top frame. -/
theorem FramesOk.replay {A S : Type} {sp : SearchSpace A S} {start : S}
    {stk : List (List (A × S) × Option A)} {t : S}
    (h : FramesOk sp start stk t) :
    Replay sp start ((stk.filterMap Prod.snd).reverse) t := by
  induction h with
  | base it hit => exact Replay.nil start
  | push it a s u rest hrest ha hit ih =>
      have : ((it, some a) :: rest).filterMap Prod.snd =
          a :: rest.filterMap Prod.snd := by
        simp [List.filterMap_cons]
      rw [this, List.reverse_cons]
      exact ih.append_one ha

/-- C1: whenever `dfs` returns a path, replaying the returned actions from
the start state via `expand` (choosing, at each step, a yielded pair whose
action matches the next path element) ends in a state satisfying the goal. -/
theorem dfs_path_valid {A S : Type} [DecidableEq S] (sp : SearchSpace A S)
    (goal : S → Bool) (start : S) (fuel : Nat) (p : List A) (c : Config A S)
    (h : dfs sp goal start fuel = some (some p, c)) :
    ∃ t, Replay sp start p t ∧ goal t = true := by
  by_cases hg : goal start = true
  · rw [dfs, hg] at h
    simp only [if_true] at h
    cases h
    exact ⟨start, Replay.nil start, hg⟩
  · have hg' : goal start = false := by
      cases hb : goal start
      · rfl
      · exact absurd hb hg
    rw [dfs, hg'] at h
    simp only [Bool.false_eq_true, if_false] at h
    have main := dfsRun_invariant
      (I := fun c : Config A S => c.stack = [] ∨ ∃ t, FramesOk sp start c.stack t)
      (P := fun r : Option (List A) × Config A S =>
        ∀ q c', r = (some q, c') → ∃ t, Replay sp start q t ∧ goal t = true)
        ?hnext ?hfound ?hexh fuel (dfsInit sp start) ?hinit (some p, c) h
    · exact main p c rfl
    case hinit =>
      right
      exact ⟨start, FramesOk.base _ (List.Subset.refl _)⟩
    case hexh =>
      intro c₀ c' _ _ q c'' hq
      cases hq
    case hfound =>
      intro c₀ q c' hI hs q' c'' hq
      obtain ⟨act, st, itRest, a, rest, hstk, _, hgoal, hp, _⟩ := dfsStep_found_inv hs
      cases hq
      rcases hI with hemp | ⟨t, hfr⟩
      · rw [hstk] at hemp
        cases hemp
      · rw [hstk] at hfr
        refine ⟨st, ?_, hgoal⟩
        have hmem : (act, st) ∈ sp.expand t := hfr.head_mem
        have hrep : Replay sp start
            (((((act, st) :: itRest, a) :: rest).filterMap Prod.snd).reverse) t :=
          hfr.replay
        have heq : (((act, st) :: itRest, a) :: rest).filterMap Prod.snd =
            ((itRest, a) :: rest).filterMap Prod.snd := by
          simp [List.filterMap_cons]
        rw [heq] at hrep
        rw [hp]
        exact hrep.append_one hmem
    case hnext =>
      intro c₀ c' hI hs
      rcases dfsStep_next_inv hs with
        ⟨a, rest, hstk, hc'⟩ |
        ⟨act, st, itRest, a, rest, hstk, _, hc'⟩ |
        ⟨act, st, itRest, a, rest, hstk, _, _, hc'⟩
      · rcases hI with hemp | ⟨t, hfr⟩
        · rw [hstk] at hemp
          cases hemp
        · rw [hstk] at hfr
          cases hfr with
          | base _ hit =>
              left
              rw [hc']
          | push _ a' _ u _ hrest ha hit =>
              right
              rw [hc']
              exact ⟨u, hrest⟩
      · rcases hI with hemp | ⟨t, hfr⟩
        · rw [hstk] at hemp
          cases hemp
        · rw [hstk] at hfr
          right
          rw [hc']
          exact ⟨t, hfr.tail⟩
      · rcases hI with hemp | ⟨t, hfr⟩
        · rw [hstk] at hemp
          cases hemp
        · rw [hstk] at hfr
          right
          rw [hc']
          exact ⟨st, FramesOk.push _ act st t _ hfr.tail hfr.head_mem
            (List.Subset.refl _)⟩

theorem dfs_path_valid_witness :
    ∃ t, Replay testSpace 0 [Dir.left, Dir.right] t ∧ eqGoal 4 t = true :=
  dfs_path_valid testSpace (eqGoal 4) 0 100 [Dir.left, Dir.right]
    ⟨[3, 1], [([], some Dir.left), ([(Dir.right, 2)], none)], [0, 1, 3], [0, 1, 3, 4]⟩
    (by decide)

end Chappie

namespace Chappie

/-- Reachability in a state space: the reflexive-transitive closure of the
successor relation given by `expand`. -/
inductive Reach {A S : Type} (sp : SearchSpace A S) (start : S) : S → Prop
  | refl : Reach sp start start
  | step (s : S) (a : A) (t : S) :
      Reach sp start s → (a, t) ∈ sp.expand s → Reach sp start t

/-- C2: when `dfs` returns "not found", no discovered state (the start state
or any state inserted into the visited set) satisfies the goal, every
`expand` successor of every discovered state was itself discovered, and
consequently no state reachable from the start state satisfies the goal. -/
theorem dfs_not_found_sound {A S : Type} [DecidableEq S] (sp : SearchSpace A S)
    (goal : S → Bool) (start : S) (fuel : Nat) (c : Config A S)
    (h : dfs sp goal start fuel = some (none, c)) :
    (∀ s ∈ discovered start c, goal s = false) ∧
    (∀ s ∈ discovered start c, ∀ pr ∈ sp.expand s, pr.2 ∈ discovered start c) ∧
    (∀ u, Reach sp start u → goal u = false) := by
  have hg' : goal start = false := by
    cases hb : goal start
    · rfl
    · rw [dfs, hb] at h
      simp at h
  rw [dfs, hg'] at h
  simp only [Bool.false_eq_true, if_false] at h
  have main := dfsRun_invariant
    (I := fun c₀ : Config A S =>
      (∀ s ∈ c₀.visited, goal s = false) ∧
      (∀ s ∈ start :: c₀.visited, ∀ pr ∈ sp.expand s,
        pr.2 ∈ start :: c₀.visited ∨ ∃ fr ∈ c₀.stack, pr ∈ fr.1))
    (P := fun r : Option (List A) × Config A S =>
      ∀ c', r = (none, c') →
        (∀ s ∈ start :: c'.visited, goal s = false) ∧
        (∀ s ∈ start :: c'.visited, ∀ pr ∈ sp.expand s, pr.2 ∈ start :: c'.visited))
    ?hnext ?hfound ?hexh fuel (dfsInit sp start) ?hinit (none, c) h
  · have h1 := (main c rfl).1
    have h2 := (main c rfl).2
    have hreach : ∀ u, Reach sp start u → u ∈ start :: c.visited := by
      intro u hu
      induction hu with
      | refl => exact List.mem_cons_self _ _
      | step s a t hs ha ih => exact h2 s ih (a, t) ha
    exact ⟨h1, h2, fun u hu => h1 u (hreach u hu)⟩
  case hinit =>
    refine ⟨?_, ?_⟩
    · intro s hs
      simp [dfsInit] at hs
    · intro s hs pr hpr
      have hs' : s = start := by simpa [dfsInit] using hs
      subst hs'
      right
      exact ⟨(sp.expand s, none), by simp [dfsInit], hpr⟩
  case hfound =>
    intro c₀ p c' _ _ c'' heq
    simp at heq
  case hexh =>
    intro c₀ c' hI hs c'' heq
    have hcc : c'' = c' := by
      cases heq
      rfl
    obtain ⟨hstk, hc⟩ := dfsStep_exhausted_inv hs
    subst hcc
    subst hc
    refine ⟨?_, ?_⟩
    · intro s hs'
      rcases List.mem_cons.mp hs' with rfl | hv
      · exact hg'
      · exact hI.1 s hv
    · intro s hs' pr hpr
      rcases hI.2 s hs' pr hpr with hin | ⟨fr, hfr, _⟩
      · exact hin
      · rw [hstk] at hfr
        cases hfr
  case hnext =>
    intro c₀ c' hI hs
    rcases dfsStep_next_inv hs with
      ⟨a, rest, hstk, hc'⟩ |
      ⟨act, st, itRest, a, rest, hstk, hmem, hc'⟩ |
      ⟨act, st, itRest, a, rest, hstk, hnv, hgf, hc'⟩
    · subst hc'
      refine ⟨hI.1, ?_⟩
      intro s hs' pr hpr
      rcases hI.2 s hs' pr hpr with hin | ⟨fr, hfr, hprm⟩
      · exact Or.inl hin
      · rw [hstk] at hfr
        rcases List.mem_cons.mp hfr with rfl | hfr'
        · cases hprm
        · exact Or.inr ⟨fr, hfr', hprm⟩
    · subst hc'
      refine ⟨hI.1, ?_⟩
      intro s hs' pr hpr
      rcases hI.2 s hs' pr hpr with hin | ⟨fr, hfr, hprm⟩
      · exact Or.inl hin
      · rw [hstk] at hfr
        rcases List.mem_cons.mp hfr with rfl | hfr'
        · rcases List.mem_cons.mp hprm with rfl | hprm'
          · exact Or.inl (List.mem_cons_of_mem _ hmem)
          · exact Or.inr ⟨(itRest, a), List.mem_cons_self _ _, hprm'⟩
        · exact Or.inr ⟨fr, List.mem_cons_of_mem _ hfr', hprm⟩
    · subst hc'
      refine ⟨?_, ?_⟩
      · intro s hv
        rcases List.mem_cons.mp hv with rfl | hv'
        · exact hgf
        · exact hI.1 s hv'
      · intro s hs' pr hpr
        have hsplit : s = st ∨ s ∈ start :: c₀.visited := by
          rcases List.mem_cons.mp hs' with rfl | hv
          · exact Or.inr (List.mem_cons_self _ _)
          · rcases List.mem_cons.mp hv with rfl | hv'
            · exact Or.inl rfl
            · exact Or.inr (List.mem_cons_of_mem _ hv')
        rcases hsplit with rfl | hold
        · exact Or.inr ⟨(sp.expand s, some act), List.mem_cons_self _ _, hpr⟩
        · rcases hI.2 s hold pr hpr with hin | ⟨fr, hfr, hprm⟩
          · rcases List.mem_cons.mp hin with rfl | hv'
            · exact Or.inl (List.mem_cons_self _ _)
            · exact Or.inl (List.mem_cons_of_mem _ (List.mem_cons_of_mem _ hv'))
          · rw [hstk] at hfr
            rcases List.mem_cons.mp hfr with rfl | hfr'
            · rcases List.mem_cons.mp hprm with rfl | hprm'
              · exact Or.inl (List.mem_cons_of_mem _ (List.mem_cons_self _ _))
              · exact Or.inr ⟨(itRest, a),
                  List.mem_cons_of_mem _ (List.mem_cons_self _ _), hprm'⟩
            · exact Or.inr ⟨fr,
                List.mem_cons_of_mem _ (List.mem_cons_of_mem _ hfr'), hprm⟩

theorem dfs_not_found_sound_witness :
    (∀ s ∈ discovered 2 (⟨[2], [], [2, 2], [2, 2]⟩ : Config Dir Nat),
      eqGoal 0 s = false) ∧
    (∀ s ∈ discovered 2 (⟨[2], [], [2, 2], [2, 2]⟩ : Config Dir Nat),
      ∀ pr ∈ testSpace.expand s,
        pr.2 ∈ discovered 2 (⟨[2], [], [2, 2], [2, 2]⟩ : Config Dir Nat)) ∧
    (∀ u, Reach testSpace 2 u → eqGoal 0 u = false) :=
  dfs_not_found_sound testSpace (eqGoal 0) 2 100 ⟨[2], [], [2, 2], [2, 2]⟩
    (by decide)

end Chappie

namespace Chappie

/-- Shape of the instrumentation logs along a run of the loop whose start
state fails the goal test: `expand` has been called exactly on the start
state followed by the visited states in insertion order (which are pairwise
distinct), and the goal test on the same states, with one extra final goal
test on the found state (distinct from all of them) when the run succeeds. -/
theorem dfsRun_log_shape {A S : Type} [DecidableEq S] {sp : SearchSpace A S}
    {goal : S → Bool} {start : S} (hstart : goal start = false)
    (n : Nat) (c : Config A S)
    (hI : c.expandLog = start :: c.visited.reverse ∧
          c.goalLog = start :: c.visited.reverse ∧ c.visited.Nodup)
    (res : Option (List A)) (c' : Config A S)
    (h : dfsRun sp goal n c = some (res, c')) :
    c'.expandLog = start :: c'.visited.reverse ∧ c'.visited.Nodup ∧
    (c'.goalLog = start :: c'.visited.reverse ∨
      ∃ st, st ∉ c'.visited ∧ st ≠ start ∧
        c'.goalLog = (start :: c'.visited.reverse) ++ [st]) := by
  have main := dfsRun_invariant
    (I := fun c₀ : Config A S =>
      c₀.expandLog = start :: c₀.visited.reverse ∧
      c₀.goalLog = start :: c₀.visited.reverse ∧ c₀.visited.Nodup)
    (P := fun r : Option (List A) × Config A S =>
      r.2.expandLog = start :: r.2.visited.reverse ∧ r.2.visited.Nodup ∧
      (r.2.goalLog = start :: r.2.visited.reverse ∨
        ∃ st, st ∉ r.2.visited ∧ st ≠ start ∧
          r.2.goalLog = (start :: r.2.visited.reverse) ++ [st]))
    ?hnext ?hfound ?hexh n c hI (res, c') h
  · exact main
  case hexh =>
    intro c₀ c'' hI0 hs
    obtain ⟨_, hc⟩ := dfsStep_exhausted_inv hs
    subst hc
    exact ⟨hI0.1, hI0.2.2, Or.inl hI0.2.1⟩
  case hfound =>
    intro c₀ p c'' hI0 hs
    obtain ⟨act, st, itRest, a, rest, hstk, hnv, hgoal, hp, hc⟩ :=
      dfsStep_found_inv hs
    subst hc
    refine ⟨hI0.1, hI0.2.2, Or.inr ⟨st, hnv, ?_, ?_⟩⟩
    · intro he
      rw [he, hstart] at hgoal
      cases hgoal
    · show c₀.goalLog ++ [st] = (start :: c₀.visited.reverse) ++ [st]
      rw [hI0.2.1]
  case hnext =>
    intro c₀ c'' hI0 hs
    rcases dfsStep_next_inv hs with
      ⟨a, rest, hstk, hc⟩ |
      ⟨act, st, itRest, a, rest, hstk, hmem, hc⟩ |
      ⟨act, st, itRest, a, rest, hstk, hnv, hgf, hc⟩
    · subst hc
      exact hI0
    · subst hc
      exact hI0
    · subst hc
      refine ⟨?_, ?_, ?_⟩
      · show c₀.expandLog ++ [st] = start :: (st :: c₀.visited).reverse
        rw [hI0.1, List.reverse_cons]
        rfl
      · show c₀.goalLog ++ [st] = start :: (st :: c₀.visited).reverse
        rw [hI0.2.1, List.reverse_cons]
        rfl
      · exact List.nodup_cons.mpr ⟨hnv, hI0.2.2⟩

/-- C4 (amended): in every terminating `dfs` traversal, `expand` is called at
most once on every non-start state and at most twice on the start state
(the start state is never pre-marked visited, so it may be re-expanded once
when it is rediscovered through a cycle). -/
theorem dfs_expand_bound {A S : Type} [DecidableEq S] (sp : SearchSpace A S)
    (goal : S → Bool) (start : S) (fuel : Nat)
    (res : Option (List A)) (c : Config A S)
    (h : dfs sp goal start fuel = some (res, c)) :
    (∀ s, s ≠ start → c.expandLog.count s ≤ 1) ∧
    c.expandLog.count start ≤ 2 := by
  by_cases hg : goal start = true
  · rw [dfs, hg] at h
    simp only [if_true, Option.some.injEq, Prod.mk.injEq] at h
    obtain ⟨_, hc⟩ := h
    subst hc
    constructor
    · intro s _
      simp
    · simp
  · have hg' : goal start = false := by
      cases hb : goal start
      · rfl
      · exact absurd hb hg
    rw [dfs, hg'] at h
    simp only [Bool.false_eq_true, if_false] at h
    obtain ⟨hexp, hnd, _⟩ := dfsRun_log_shape hg' fuel (dfsInit sp start)
      ⟨rfl, rfl, List.nodup_nil⟩ res c h
    have hcnt : ∀ s, c.visited.count s ≤ 1 :=
      List.nodup_iff_count_le_one.mp hnd
    constructor
    · intro s hne
      rw [hexp, List.count_cons_of_ne hne, List.count_reverse]
      exact hcnt s
    · rw [hexp, List.count_cons_self, List.count_reverse]
      have := hcnt start
      omega

theorem dfs_expand_bound_witness :
    (∀ s, s ≠ 2 →
      (⟨[2], [], [2, 2], [2, 2]⟩ : Config Dir Nat).expandLog.count s ≤ 1) ∧
    (⟨[2], [], [2, 2], [2, 2]⟩ : Config Dir Nat).expandLog.count 2 ≤ 2 :=
  dfs_expand_bound testSpace (eqGoal 0) 2 100 none ⟨[2], [], [2, 2], [2, 2]⟩
    (by decide)

/-- C5 (amended): in every terminating `dfs` traversal, the goal test is
invoked at most once on every non-start candidate state and at most twice on
the start state (once on entry and possibly once more when the start state,
never having been marked visited, is rediscovered through a cycle). -/
theorem dfs_goal_bound {A S : Type} [DecidableEq S] (sp : SearchSpace A S)
    (goal : S → Bool) (start : S) (fuel : Nat)
    (res : Option (List A)) (c : Config A S)
    (h : dfs sp goal start fuel = some (res, c)) :
    (∀ s, s ≠ start → c.goalLog.count s ≤ 1) ∧
    c.goalLog.count start ≤ 2 := by
  by_cases hg : goal start = true
  · rw [dfs, hg] at h
    simp only [if_true, Option.some.injEq, Prod.mk.injEq] at h
    obtain ⟨_, hc⟩ := h
    subst hc
    constructor
    · intro s hne
      simp [List.count_singleton', hne]
    · simp
  · have hg' : goal start = false := by
      cases hb : goal start
      · rfl
      · exact absurd hb hg
    rw [dfs, hg'] at h
    simp only [Bool.false_eq_true, if_false] at h
    obtain ⟨_, hnd, hgl⟩ := dfsRun_log_shape hg' fuel (dfsInit sp start)
      ⟨rfl, rfl, List.nodup_nil⟩ res c h
    have hcnt : ∀ s, c.visited.count s ≤ 1 :=
      List.nodup_iff_count_le_one.mp hnd
    rcases hgl with hgl | ⟨st, hstm, hstne, hgl⟩
    · constructor
      · intro s hne
        rw [hgl, List.count_cons_of_ne hne, List.count_reverse]
        exact hcnt s
      · rw [hgl, List.count_cons_self, List.count_reverse]
        have := hcnt start
        omega
    · constructor
      · intro s hne
        rw [hgl, List.count_append, List.count_cons_of_ne hne, List.count_reverse]
        by_cases hsst : s = st
        · subst hsst
          have h0 : c.visited.count s = 0 := List.count_eq_zero.mpr hstm
          have h1 : ([s] : List S).count s = 1 := by simp
          omega
        · have h0 : ([st] : List S).count s = 0 :=
            List.count_eq_zero.mpr (by simpa using hsst)
          have := hcnt s
          omega
      · rw [hgl, List.count_append, List.count_cons_self, List.count_reverse]
        have h0 : ([st] : List S).count start = 0 :=
          List.count_eq_zero.mpr (by simpa using Ne.symm hstne)
        have := hcnt start
        omega

theorem dfs_goal_bound_witness :
    (∀ s, s ≠ 2 →
      (⟨[2], [], [2, 2], [2, 2]⟩ : Config Dir Nat).goalLog.count s ≤ 1) ∧
    (⟨[2], [], [2, 2], [2, 2]⟩ : Config Dir Nat).goalLog.count 2 ≤ 2 :=
  dfs_goal_bound testSpace (eqGoal 0) 2 100 none ⟨[2], [], [2, 2], [2, 2]⟩
    (by decide)

end Chappie

namespace Chappie

/-- Termination measure for the DFS loop over a finite successor-closed state
set `R`: pairs still pending on the stack, plus the stack depth, plus a
budget of `B + 2` further steps for every state of `R` not yet visited
(`B` bounds the length of every `expand` result over `R`). Every loop step
strictly decreases it. -/
def measureOf {A S : Type} (R : Finset S) (B : Nat) (c : Config A S) : Nat :=
  (c.stack.map (fun fr => fr.1.length)).sum + c.stack.length +
    (R.card - c.visited.length) * (B + 2)

/-- The loop returns a definite answer within any fuel budget exceeding the
measure, provided every pending state and every visited state lies in the
finite successor-closed set `R`. -/
theorem dfsRun_total {A S : Type} [DecidableEq S] {sp : SearchSpace A S}
    {goal : S → Bool} {R : Finset S} {B : Nat}
    (hclosed : ∀ s ∈ R, ∀ pr ∈ sp.expand s, pr.2 ∈ R)
    (hB : ∀ s ∈ R, (sp.expand s).length ≤ B) :
    ∀ (n : Nat) (c : Config A S),
      (∀ fr ∈ c.stack, ∀ pr ∈ fr.1, pr.2 ∈ R) →
      (∀ s ∈ c.visited, s ∈ R) → c.visited.Nodup →
      measureOf R B c < n → (dfsRun sp goal n c).isSome := by
  intro n
  induction n with
  | zero =>
    intro c _ _ _ hm
    exact absurd hm (Nat.not_lt_zero _)
  | succ n ih =>
    intro c hfr hvR hnd hm
    rw [dfsRun]
    cases hs : dfsStep sp goal c with
    | found p c' => simp
    | exhausted c' => simp
    | next c' =>
      simp only []
      rcases dfsStep_next_inv hs with
        ⟨a, rest, hstk, hc⟩ |
        ⟨act, st, itRest, a, rest, hstk, hmem, hc⟩ |
        ⟨act, st, itRest, a, rest, hstk, hnv, hgf, hc⟩
      · subst hc
        apply ih
        · intro fr hfr' pr hpr
          exact hfr fr (by rw [hstk]; exact List.mem_cons_of_mem _ hfr') pr hpr
        · exact hvR
        · exact hnd
        · have key : measureOf R B { c with stack := rest } + 1 = measureOf R B c := by
            rw [measureOf, measureOf, hstk]
            simp only [List.map_cons, List.sum_cons, List.length_cons, List.length_nil]
            generalize (R.card - c.visited.length) * (B + 2) = P
            omega
          omega
      · subst hc
        apply ih
        · intro fr hfr' pr hpr
          rcases List.mem_cons.mp hfr' with rfl | hfr''
          · exact hfr (((act, st) :: itRest, a))
              (by rw [hstk]; exact List.mem_cons_self _ _) pr
              (List.mem_cons_of_mem _ hpr)
          · exact hfr fr (by rw [hstk]; exact List.mem_cons_of_mem _ hfr'') pr hpr
        · exact hvR
        · exact hnd
        · have key : measureOf R B { c with stack := (itRest, a) :: rest } + 1 =
              measureOf R B c := by
            rw [measureOf, measureOf, hstk]
            simp only [List.map_cons, List.sum_cons, List.length_cons]
            generalize (R.card - c.visited.length) * (B + 2) = P
            omega
          omega
      · have htop : ((act, st) :: itRest, a) ∈ c.stack := by
          rw [hstk]
          exact List.mem_cons_self _ _
        have hstR : st ∈ R := hfr _ htop (act, st) (List.mem_cons_self _ _)
        have hnd' : (st :: c.visited).Nodup := List.nodup_cons.mpr ⟨hnv, hnd⟩
        have hlen : (st :: c.visited).length ≤ R.card := by
          have hsub : (st :: c.visited).toFinset ⊆ R := by
            intro x hx
            rcases List.mem_cons.mp (List.mem_toFinset.mp hx) with rfl | hx'
            · exact hstR
            · exact hvR x hx'
          calc (st :: c.visited).length
              = (st :: c.visited).toFinset.card :=
                (List.toFinset_card_of_nodup hnd').symm
            _ ≤ R.card := Finset.card_le_card hsub
        have hE : (sp.expand st).length ≤ B := hB st hstR
        subst hc
        apply ih
        · intro fr hfr' pr hpr
          rcases List.mem_cons.mp hfr' with rfl | hfr''
          · exact hclosed st hstR pr hpr
          · rcases List.mem_cons.mp hfr'' with rfl | hfr'''
            · exact hfr _ htop pr (List.mem_cons_of_mem _ hpr)
            · exact hfr fr (by rw [hstk]; exact List.mem_cons_of_mem _ hfr''') pr hpr
        · intro s hsv
          rcases List.mem_cons.mp hsv with rfl | hsv'
          · exact hstR
          · exact hvR s hsv'
        · exact hnd'
        · have hvlt : c.visited.length + 1 ≤ R.card := by
            simpa using hlen
          have key : measureOf R B
              ⟨st :: c.visited, (sp.expand st, some act) :: (itRest, a) :: rest,
                c.expandLog ++ [st], c.goalLog ++ [st]⟩ < measureOf R B c := by
            rw [measureOf, measureOf, hstk]
            simp only [List.map_cons, List.sum_cons, List.length_cons]
            rw [show R.card - c.visited.length =
                (R.card - (c.visited.length + 1)) + 1 from by omega]
            rw [Nat.add_mul, Nat.one_mul]
            generalize (R.card - (c.visited.length + 1)) * (B + 2) = P
            omega
          omega

/-- C7: whenever the set of states reachable from the start state is
contained in a finite set `R` closed under `expand` successors, `dfs`
terminates: some fuel budget makes the loop return a definite answer
(a path or "not found") after finitely many steps. -/
theorem dfs_terminates {A S : Type} [DecidableEq S] (sp : SearchSpace A S)
    (goal : S → Bool) (start : S) (R : Finset S)
    (hstart : start ∈ R)
    (hclosed : ∀ s ∈ R, ∀ pr ∈ sp.expand s, pr.2 ∈ R) :
    ∃ n, (dfs sp goal start n).isSome := by
  by_cases hg : goal start = true
  · refine ⟨0, ?_⟩
    rw [dfs, hg]
    simp
  · have hg' : goal start = false := by
      cases hb : goal start
      · rfl
      · exact absurd hb hg
    refine ⟨measureOf R (R.sup fun s => (sp.expand s).length) (dfsInit sp start) + 1, ?_⟩
    rw [dfs, hg']
    simp only [Bool.false_eq_true, if_false]
    apply dfsRun_total hclosed
      (fun s hs => Finset.le_sup (f := fun u => (sp.expand u).length) hs)
    · intro fr hfr pr hpr
      have : fr = (sp.expand start, none) := by
        simpa [dfsInit] using hfr
      rw [this] at hpr
      exact hclosed start hstart pr hpr
    · intro s hs
      simp [dfsInit] at hs
    · exact List.nodup_nil
    · omega

theorem dfs_terminates_witness :
    ∃ n, (dfs testSpace (eqGoal 5) 0 n).isSome :=
  dfs_terminates testSpace (eqGoal 5) 0 {0, 1, 2, 3, 4} (by decide) (by decide)

end Chappie
